import Mathlib

/-!
Verification of the folder-tail tail engine (src/internal/tailer/tailer.go).

Bytes are modelled as `Nat` values and Go byte slices as `List Nat`
(line feed = 10, carriage return = 13, NUL = 0). Go strings produced
from byte slices are kept as `List Nat` as well, since the tailer only
ever converts bytes to strings verbatim. Functions from the Go standard
library that the tailer calls (the MIME sniffer, the glob and regexp
matchers, string trimming) are taken as parameters of the embedding;
everything else is translated from the source.

In the Go `fileState` structure the held-back line fragment field is
called `partial` and its delivery flag `partialDisplayed`; here they are
named `pend` and `pendDisp`.
-/

namespace FolderTail

/-- Go constant `readChunkSize` (tailer.go line 23). -/
def readChunkSize : Nat := 4096

/-- Embedding of `trimTrailingCR` (tailer.go lines 784-792): drop a single
trailing carriage return, if present. -/
def trimTrailingCR (data : List Nat) : List Nat :=
  if data.getLast? = some 13 then data.dropLast else data

/-- The loop of `splitLines` (tailer.go lines 701-724), with the bytes of the
current (not yet terminated) segment carried in `cur` instead of the Go
index pair `start`/`i`: at each line feed the carried segment is emitted
(with `trimTrailingCR` applied), and at the end of the data the remaining
segment becomes the partial-line remainder (empty when the data ended
exactly on a line feed, matching Go's nil partial). -/
def splitGo (cur : List Nat) : List Nat → List (List Nat) × List Nat
  | [] => ([], trimTrailingCR cur)
  | b :: rest =>
    if b = 10 then
      (trimTrailingCR cur :: (splitGo [] rest).1, (splitGo [] rest).2)
    else
      splitGo (cur ++ [b]) rest

/-- Embedding of `splitLines` (tailer.go lines 701-724). Returns the complete
lines and the trailing unterminated remainder. Go's special case for empty
input returns (nil, nil), which coincides with `splitGo [] []`. -/
def splitLines (data : List Nat) : List (List Nat) × List Nat :=
  splitGo [] data

/-- The complete lines emitted by `splitGo cur data` (specification helper
used to reason about `splitGo` compositionally). -/
def doneLines (cur : List Nat) : List Nat → List (List Nat)
  | [] => []
  | b :: rest =>
    if b = 10 then trimTrailingCR cur :: doneLines [] rest
    else doneLines (cur ++ [b]) rest

/-- The pending (unterminated) segment left after `splitGo cur data`
processes `data` (specification helper). -/
def pendSeg (cur : List Nat) : List Nat → List Nat
  | [] => cur
  | b :: rest => if b = 10 then pendSeg [] rest else pendSeg (cur ++ [b]) rest

/-- Reinsert a line feed after every complete line and concatenate. -/
def joinLF (lines : List (List Nat)) : List Nat :=
  (lines.map (fun l => l ++ [10])).flatten

/-- A byte sequence with every lone carriage return standing directly before
a line feed removed, and a single carriage return at the very end removed.
This is the claim's notion of "the original bytes, except that a single lone
trailing carriage return is stripped from each line and from the partial". -/
def normCRLF : List Nat → List Nat
  | [] => []
  | [b] => if b = 13 then [] else [b]
  | b :: c :: rest =>
    if b = 13 then
      (if c = 10 then 10 :: normCRLF rest else 13 :: normCRLF (c :: rest))
    else b :: normCRLF (c :: rest)

/-- The last `k` entries of a list (all of them when it is shorter). -/
def lastN {α : Type} (l : List α) (k : Nat) : List α :=
  l.drop (l.length - k)

/-- The backward chunked-read loop of `tailLastLines` (tailer.go lines
744-764), phrased over the file contents: `remaining` is the offset at which
the data read so far starts, and the loop keeps extending the suffix by one
chunk (of at most `readChunkSize` bytes) while something is left and the
line feeds seen so far do not exceed `n`. The structural `fuel` argument
bounds the iteration count; `remaining` strictly decreases each step, so any
`fuel ≥ remaining` reproduces the Go loop exactly. Returns the final offset. -/
def tailRem (contents : List Nat) (n : Nat) : Nat → Nat → Nat
  | 0, remaining => remaining
  | fuel + 1, remaining =>
    if 0 < remaining ∧ (contents.drop remaining).count 10 ≤ n then
      tailRem contents n fuel (remaining - min readChunkSize remaining)
    else remaining

/-- Embedding of `tailLastLines` (tailer.go lines 726-782) as a function of
the file contents: read backward chunk by chunk until more than `n` line
feeds are gathered (or the file start is reached), split the gathered
suffix, and keep the last `n` lines (last `n-1` plus the partial when the
suffix has an unterminated remainder). -/
def tailLastLines (contents : List Nat) (n : Nat) : List (List Nat) × List Nat :=
  if n = 0 then ([], [])
  else if contents.length = 0 then ([], [])
  else
    let rem := tailRem contents n contents.length contents.length
    let s := splitLines (contents.drop rem)
    if s.2 ≠ [] then
      (if n - 1 < s.1.length then s.1.drop (s.1.length - (n - 1)) else s.1, s.2)
    else
      (if n < s.1.length then s.1.drop (s.1.length - n) else s.1, [])

/-! Embedding of the incremental reader (`readFromOffset`, `readNew`,
tailer.go lines 480-616). A line event mirrors Go's `Line` value: `text`
for `Text`, `isPart` for `Partial`, `isUpd` for `Update` (the `Path` field
is the same for every event of one call and is omitted). The per-file
state mirrors Go's `fileState`: `offset`, `pend` for `partial`, `pendDisp`
for `partialDisplayed`. The bytes the call reads from the file, from the
seek offset to end of file, are passed as the explicit list `data`; the
`file.Read` loop consumes them in chunks of `readChunkSize` bytes. -/

/-- The byte sequence of the Go truncation marker string " [truncated]". -/
def truncMarker : List Nat := [32, 91, 116, 114, 117, 110, 99, 97, 116, 101, 100, 93]

/-- Embedding of `truncateLineBytes` (tailer.go lines 828-833). -/
def truncateLineBytes (data : List Nat) (max : Nat) : List Nat × Bool :=
  if 0 < max ∧ max < data.length then (data.take max ++ truncMarker, true)
  else (data, false)

/-- Go's `fileState` (tailer.go lines 63-67). -/
structure FileState where
  offset : Nat
  pend : List Nat
  pendDisp : Bool
deriving DecidableEq

/-- Go's `Line` event restricted to one file (tailer.go lines 56-61). -/
structure LineEvent where
  text : List Nat
  isPart : Bool
  isUpd : Bool
deriving DecidableEq

/-- `bytes.IndexByte data 10`: index of the first line feed, if any. -/
def findLF : List Nat → Option Nat
  | [] => none
  | b :: rest => if b = 10 then some 0 else (findLF rest).map (fun i => i + 1)

/-- The inner loop of `readFromOffset` (tailer.go lines 557-584) over one
read chunk: split the chunk at line feeds, emitting a line event per
terminator found; when no terminator remains in the chunk, append the rest
to the carry and flush the carry as a truncated event if it exceeds the
ceiling. Returns (events, carry, update-emitted flag). The structural
`fuel` bounds iteration; each step consumes at least one byte, so any
`fuel ≥ data.length` reproduces the Go loop. -/
def chunkLoop (maxB : Nat) (hadP : Bool) :
    Nat → Bool → List Nat → List Nat → List LineEvent × List Nat × Bool
  | 0, upd, carry, _ => ([], carry, upd)
  | fuel + 1, upd, carry, data =>
    if data = [] then ([], carry, upd)
    else
      match findLF data with
      | none =>
        let carry' := carry ++ data
        if 0 < maxB ∧ maxB < carry'.length then
          let t := truncateLineBytes carry' maxB
          if t.2 then
            let u := hadP && !upd
            ([⟨t.1, false, u⟩], [], upd || u)
          else ([], carry', upd)
        else ([], carry', upd)
      | some idx =>
        let lineBytes := trimTrailingCR (carry ++ data.take idx)
        let text := (truncateLineBytes lineBytes maxB).1
        let u := hadP && !upd
        let r := chunkLoop maxB hadP fuel (upd || u) [] (data.drop (idx + 1))
        (⟨text, false, u⟩ :: r.1, r.2.1, r.2.2)

/-- The chunked `file.Read` loop of `readFromOffset` (tailer.go lines
550-592): process `data` one chunk of `readChunkSize` bytes at a time
until end of file. Returns (events, carry, update-emitted flag); `fuel`
bounds the number of chunks, so any `fuel ≥ data.length` is enough. -/
def readLoop (maxB : Nat) (hadP : Bool) :
    Nat → Bool → List Nat → List Nat → List LineEvent × List Nat × Bool
  | 0, upd, carry, _ => ([], carry, upd)
  | fuel + 1, upd, carry, data =>
    if data = [] then ([], carry, upd)
    else
      let chunk := data.take readChunkSize
      let c := chunkLoop maxB hadP chunk.length upd carry chunk
      let r := readLoop maxB hadP fuel c.2.2 c.2.1 (data.drop readChunkSize)
      (c.1 ++ r.1, r.2.1, r.2.2)

/-- The post-loop carry flush of `readFromOffset` (tailer.go lines
594-612). Returns (events, new pend, new pendDisp). -/
def finishRead (maxB : Nat) (hadP upd : Bool) (carry : List Nat) :
    List LineEvent × List Nat × Bool :=
  if carry = [] then ([], [], false)
  else
    let p := trimTrailingCR carry
    let t := truncateLineBytes p maxB
    let u := hadP && !upd
    if t.2 then ([⟨t.1, !t.2, u⟩], [], false)
    else ([⟨t.1, !t.2, u⟩], p, true)

/-- Embedding of `readFromOffset` (tailer.go lines 530-616). `data` is the
byte sequence the call reads from the file, from `offset` to end of file. -/
def readFromOffset (st : FileState) (offset maxB : Nat) (includeExisting : Bool)
    (data : List Nat) : List LineEvent × FileState :=
  let hadP := st.pendDisp && includeExisting && decide (st.pend ≠ [])
  let carry0 := if includeExisting = true ∧ st.pend ≠ [] then st.pend else []
  let r := readLoop maxB hadP (data.length + 1) false carry0 data
  let f := finishRead maxB hadP r.2.2 r.2.1
  (r.1 ++ f.1, ⟨offset + data.length, f.2.1, f.2.2⟩)

/-- Embedding of `readNew` (tailer.go lines 508-528) for a regular file:
`contents` is the file's current contents, so `info.Size()` is
`contents.length`. On no growth it reads nothing; on truncation
(size < offset) it resets the state before reading from the start. -/
def readNew (st : FileState) (maxB : Nat) (contents : List Nat) :
    List LineEvent × FileState :=
  if contents.length = st.offset then ([], st)
  else
    let st' := if contents.length < st.offset then ⟨0, [], false⟩ else st
    readFromOffset st' st'.offset maxB true (contents.drop st'.offset)

/-! Embedding of the text classifier (`isTextData`, tailer.go lines
809-826) and the pattern matcher (tailer.go lines 635-676 and 835-918).
Strings are Lean `String`s. The Go standard-library functions involved are
parameters: `sniff` stands for `http.DetectContentType`, `pm` for
`path.Match`, `fm` for `filepath.Match`, `rm` for `regexp.MatchString` on
a compiled pattern (represented by its source text), `rcOk` for
compilability under `regexp.Compile`, `validG` for glob validation, and
`trimSp` for `strings.TrimSpace`. `sep` is `os.PathSeparator`. -/

/-- Boolean prefix test on lists (first argument is the candidate prefix). -/
def listPfx {α : Type} [DecidableEq α] : List α → List α → Bool
  | [], _ => true
  | _ :: _, [] => false
  | a :: as, b :: bs => if a = b then listPfx as bs else false

/-- `strings.HasPrefix s p`. -/
def strHasPfx (s p : String) : Bool := listPfx p.data s.data

def textSlashPfx : String := "text/"

def ctJSON : String := "application/json"

def ctXML : String := "application/xml"

def ctJS : String := "application/javascript"

def ctForm : String := "application/x-www-form-urlencoded"

def rePfxStr : String := "re:"

def dotSlash : String := "./"

def dotBackslash : String := ".\\"

def emptyStr : String := ""

def inRange (lo hi b : Nat) : Bool := decide (lo ≤ b ∧ b ≤ hi)

/-- Modelled from Go's `unicode/utf8.Valid` over bytes: the standard UTF-8
acceptance ranges (no overlong encodings, no surrogates, max U+10FFFF).
Both sides of the classification theorem use this same function, so claim
C6 does not depend on its internals. -/
def utf8Valid : List Nat → Bool
  | [] => true
  | b :: rest =>
    if b ≤ 127 then utf8Valid rest
    else if inRange 194 223 b then
      match rest with
      | b2 :: rest2 => inRange 128 191 b2 && utf8Valid rest2
      | [] => false
    else if inRange 224 239 b then
      match rest with
      | b2 :: b3 :: rest3 =>
        (if b = 224 then inRange 160 191 b2
         else if b = 237 then inRange 128 159 b2
         else inRange 128 191 b2) && inRange 128 191 b3 && utf8Valid rest3
      | _ => false
    else if inRange 240 244 b then
      match rest with
      | b2 :: b3 :: b4 :: rest4 =>
        (if b = 240 then inRange 144 191 b2
         else if b = 244 then inRange 128 143 b2
         else inRange 128 191 b2) && inRange 128 191 b3 && inRange 128 191 b4 &&
          utf8Valid rest4
      | _ => false
    else false

/-- Embedding of `isTextData` (tailer.go lines 809-826), with the MIME
sniffer `http.DetectContentType` passed as the parameter `sniff`.
`data.contains 0` is Go's `bytes.IndexByte(data, 0) >= 0`. -/
def isTextData (sniff : List Nat → String) (data : List Nat) : Bool :=
  if data.length = 0 then true
  else if data.contains 0 then false
  else
    let contentType := sniff data
    if strHasPfx contentType textSlashPfx then true
    else if contentType = ctJSON ∨ contentType = ctXML ∨ contentType = ctJS ∨
        contentType = ctForm then true
    else utf8Valid data

/-- Go's `patternKind` (tailer.go lines 27-32). -/
inductive PatKind
  | glob
  | regex
deriving DecidableEq

/-- Go's `pattern` structure (tailer.go lines 34-40); the compiled regex is
represented by its source text `rePat`, matched through the abstract
matcher `rm`. -/
structure Pat where
  raw : String
  kind : PatKind
  globPat : String
  rePat : String
  pathPat : Bool
deriving DecidableEq

def slashChar : Char := '/'

def bslashChar : Char := '\\'

/-- `filepath.ToSlash`: replace the OS path separator with a slash. -/
def toSlash (sep : Char) (s : String) : String :=
  ⟨s.data.map (fun c => if c = sep then slashChar else c)⟩

/-- Embedding of `usesPathPattern` (tailer.go lines 916-918):
`strings.ContainsAny(pattern, "/\\")`. -/
def usesPathPattern (p : String) : Bool :=
  p.data.any (fun c => c == slashChar || c == bslashChar)

/-- Embedding of `normalizeGlobPattern` (tailer.go lines 881-886). -/
def normalizeGlobPattern (p : String) : String :=
  if strHasPfx p dotSlash || strHasPfx p dotBackslash then ⟨p.data.drop 2⟩
  else p

/-- Embedding of `stripRegexPrefix` (tailer.go lines 877-879):
`strings.TrimPrefix(value, "re:")`. -/
def stripRegexPfx (v : String) : String :=
  if strHasPfx v rePfxStr then ⟨v.data.drop 3⟩ else v

/-- Embedding of `patternKindFor` (tailer.go lines 867-875). -/
def patternKindFor (value : String) (forceRegex : Bool) : PatKind × String :=
  if forceRegex then (PatKind.regex, stripRegexPfx value)
  else if strHasPfx value rePfxStr then (PatKind.regex, ⟨value.data.drop 3⟩)
  else (PatKind.glob, value)

/-- Embedding of `compilePatterns` (tailer.go lines 835-865). `trimSp`
stands for `strings.TrimSpace`, `rcOk` for regex compilability, `validG`
for `validateGlob`; a failing compile yields `none` (Go's error return). -/
def compilePatterns (trimSp : String → String) (rcOk : String → Bool)
    (validG : String → Bool) (forceRegex : Bool) :
    List String → Option (List Pat)
  | [] => some []
  | v :: rest =>
    let value := trimSp v
    if value = emptyStr then compilePatterns trimSp rcOk validG forceRegex rest
    else
      let kr := patternKindFor value forceRegex
      match kr.1 with
      | PatKind.regex =>
        if rcOk kr.2 then
          (compilePatterns trimSp rcOk validG forceRegex rest).map
            (fun ps => ⟨value, PatKind.regex, emptyStr, kr.2, false⟩ :: ps)
        else none
      | PatKind.glob =>
        let g := normalizeGlobPattern kr.2
        if validG g then
          (compilePatterns trimSp rcOk validG forceRegex rest).map
            (fun ps => ⟨value, PatKind.glob, g, emptyStr, usesPathPattern g⟩ :: ps)
        else none

/-- Embedding of `matchCompiledPattern` (tailer.go lines 900-914): a regex
pattern is matched against the slash-normalized relative path; a glob with
the path flag against the slash-normalized relative path via `path.Match`
(`pm`), a separator-free glob against the base name via `filepath.Match`
(`fm`). -/
def matchCompiledPattern (pm fm rm : String → String → Bool) (sep : Char)
    (p : Pat) (name rel : String) : Bool :=
  match p.kind with
  | PatKind.regex => rm p.rePat (toSlash sep rel)
  | PatKind.glob =>
    if p.pathPat then pm p.globPat (toSlash sep rel)
    else fm p.globPat name

/-- Embedding of `shouldInclude` (tailer.go lines 635-676) with the base
name and relative path precomputed (Go derives them from the path). -/
def shouldInclude (pm fm rm : String → String → Bool) (sep : Char)
    (incs excs : List Pat) (name rel : String) : Bool :=
  if incs = [] ∧ excs = [] then true
  else if incs ≠ [] ∧
      incs.any (fun p => matchCompiledPattern pm fm rm sep p name rel) = false
    then false
  else if excs.any (fun p => matchCompiledPattern pm fm rm sep p name rel)
    then false
  else true

/-- The claim's per-pattern matching mode (spec wording): a regex matches
against the slash-normalized relative path; a glob containing a path
separator matches against the slash-normalized relative path, a
separator-free glob against the base file name only. -/
def patMatchSpec (pm fm rm : String → String → Bool) (sep : Char)
    (name rel : String) (p : Pat) : Bool :=
  match p.kind with
  | PatKind.regex => rm p.rePat (toSlash sep rel)
  | PatKind.glob =>
    if usesPathPattern p.globPat then pm p.globPat (toSlash sep rel)
    else fm p.globPat name

/-- Embedding of `removePath` (tailer.go lines 437-455) restricted to its
effect on the watched-directory set and the file-state store: removing a
watched directory drops its watch and deletes every tracked file whose
path extends the directory path followed by the separator; removing a
non-watched path deletes exactly that path's state. -/
def removePath (watched : List String) (states : List (String × FileState))
    (sep : Char) (p : String) : List String × List (String × FileState) :=
  if p ∈ watched then
    (watched.erase p,
      states.filter (fun kv => !(strHasPfx kv.1 (p.push sep))))
  else (watched, states.filter (fun kv => !(kv.1 == p)))

def logGlob : String := "*.log"

def nameLog : String := "app.log"

def nameTxt : String := "app.txt"

def relLog : String := "d/app.log"

def dirStr : String := "d"

def fileUnder : String := "d/x"

def fileOut : String := "e/x"

/-! Basic lemmas about `trimTrailingCR`. -/

lemma trimTrailingCR_nil : trimTrailingCR [] = [] := by
  simp [trimTrailingCR]

lemma trimTrailingCR_single (b : Nat) :
    trimTrailingCR [b] = if b = 13 then [] else [b] := by
  by_cases hb : b = 13 <;> simp [trimTrailingCR, hb]

lemma trimTrailingCR_cons (a : Nat) (l : List Nat) (h : l ≠ []) :
    trimTrailingCR (a :: l) = a :: trimTrailingCR l := by
  obtain ⟨b, l', rfl⟩ := List.exists_cons_of_ne_nil h
  by_cases hl : (b :: l').getLast? = some 13 <;>
    simp [trimTrailingCR, List.getLast?_cons_cons, hl]

/-! `splitGo` computes `doneLines` and `pendSeg`. -/

lemma splitGo_eq (data : List Nat) : ∀ cur,
    splitGo cur data = (doneLines cur data, trimTrailingCR (pendSeg cur data)) := by
  induction data with
  | nil => intro cur; rfl
  | cons b rest ih =>
    intro cur
    by_cases hb : b = 10
    · simp [splitGo, doneLines, pendSeg, hb, ih]
    · simp [splitGo, doneLines, pendSeg, hb, ih]

lemma doneLines_append (xs : List Nat) : ∀ cur ys,
    doneLines cur (xs ++ ys) = doneLines cur xs ++ doneLines (pendSeg cur xs) ys := by
  induction xs with
  | nil => intro cur ys; simp [doneLines, pendSeg]
  | cons b rest ih =>
    intro cur ys
    by_cases hb : b = 10 <;> simp [doneLines, pendSeg, hb, ih]

lemma pendSeg_append (xs : List Nat) : ∀ cur ys,
    pendSeg cur (xs ++ ys) = pendSeg (pendSeg cur xs) ys := by
  induction xs with
  | nil => intro cur ys; simp [pendSeg]
  | cons b rest ih =>
    intro cur ys
    by_cases hb : b = 10 <;> simp [pendSeg, hb, ih]

lemma doneLines_length (data : List Nat) : ∀ cur,
    (doneLines cur data).length = data.count 10 := by
  induction data with
  | nil => intro cur; simp [doneLines]
  | cons b rest ih =>
    intro cur
    by_cases hb : b = 10 <;>
      simp [doneLines, hb, ih, List.count_cons]

/-! Lemmas about `normCRLF`. -/

lemma normCRLF_lf_cons (rest : List Nat) :
    normCRLF (10 :: rest) = 10 :: normCRLF rest := by
  cases rest with
  | nil => simp [normCRLF]
  | cons c r => simp [normCRLF]

lemma normCRLF_no_lf (l : List Nat) (h : 10 ∉ l) :
    normCRLF l = trimTrailingCR l := by
  induction l with
  | nil => simp [normCRLF, trimTrailingCR_nil]
  | cons b rest ih =>
    have hrest : 10 ∉ rest := fun hr => h (List.mem_cons_of_mem b hr)
    match rest with
    | [] =>
      by_cases h13 : b = 13 <;> simp [normCRLF, h13, trimTrailingCR_single]
    | c :: rest2 =>
      have hc : c ≠ 10 := fun hc =>
        hrest (hc ▸ List.mem_cons_self c rest2)
      by_cases h13 : b = 13
      · simp [normCRLF, h13, hc, ih hrest, trimTrailingCR_cons]
      · simp [normCRLF, h13, ih hrest, trimTrailingCR_cons]

lemma normCRLF_append_lf (cur : List Nat) (h : 10 ∉ cur) : ∀ rest,
    normCRLF (cur ++ 10 :: rest) = trimTrailingCR cur ++ 10 :: normCRLF rest := by
  induction cur with
  | nil => intro rest; simpa [trimTrailingCR_nil] using normCRLF_lf_cons rest
  | cons b cur' ih =>
    intro rest
    have hcur' : 10 ∉ cur' := fun hc => h (List.mem_cons_of_mem b hc)
    match cur' with
    | [] =>
      by_cases h13 : b = 13 <;>
        simp [normCRLF, h13, trimTrailingCR_single, normCRLF_lf_cons]
    | c :: cur2 =>
      have hc : c ≠ 10 := fun hc =>
        hcur' (hc ▸ List.mem_cons_self c cur2)
      by_cases h13 : b = 13
      · simpa [normCRLF, h13, hc, trimTrailingCR_cons] using ih hcur' rest
      · simpa [normCRLF, h13, trimTrailingCR_cons] using ih hcur' rest

lemma pendSeg_no_lf (data : List Nat) : ∀ cur, 10 ∉ cur → 10 ∉ pendSeg cur data := by
  induction data with
  | nil => intro cur h; simpa [pendSeg] using h
  | cons b rest ih =>
    intro cur h
    by_cases hb : b = 10
    · simpa [pendSeg, hb] using ih [] (by simp)
    · have hcur : 10 ∉ cur ++ [b] := by
        intro hmem
        rcases List.mem_append.mp hmem with h1 | h2
        · exact h h1
        · have h10 : (10 : Nat) = b := by simpa using h2
          exact hb h10.symm
      simpa [pendSeg, hb] using ih (cur ++ [b]) hcur

lemma splitGo_roundTrip (data : List Nat) : ∀ cur, 10 ∉ cur →
    joinLF (doneLines cur data) ++ trimTrailingCR (pendSeg cur data) =
      normCRLF (cur ++ data) := by
  induction data with
  | nil =>
    intro cur h
    simp [doneLines, pendSeg, joinLF, normCRLF_no_lf cur h]
  | cons b rest ih =>
    intro cur h
    by_cases hb : b = 10
    · subst hb
      have := ih [] (by simp)
      simp only [doneLines, pendSeg, if_pos rfl, joinLF, List.map_cons,
        List.flatten_cons]
      rw [normCRLF_append_lf cur h rest]
      simp only [joinLF] at this
      simp [List.append_assoc, this]
    · have hcur : 10 ∉ cur ++ [b] := by
        intro hmem
        rcases List.mem_append.mp hmem with h1 | h2
        · exact h h1
        · have h10 : (10 : Nat) = b := by simpa using h2
          exact hb h10.symm
      have := ih (cur ++ [b]) hcur
      simp only [doneLines, pendSeg, if_neg hb]
      rw [this]
      simp

/-- C1: Line-splitting round trip. Concatenating the complete lines returned
by `splitLines` with a line feed reinserted after each, followed by the
returned partial remainder, reconstructs the original byte sequence with a
single lone trailing carriage return stripped from each line (the carriage
return standing directly before each line feed) and from the partial (the
carriage return at the very end). -/
theorem splitLines_roundTrip (data : List Nat) :
    joinLF (splitLines data).1 ++ (splitLines data).2 = normCRLF data := by
  have h := splitGo_roundTrip data [] (by simp)
  rw [splitLines, splitGo_eq]
  simpa using h

/-! Lemmas leading to the seek-tail correctness statement (claim C2). -/

lemma ite_drop_eq_lastN {α : Type} (l : List α) (k : Nat) :
    (if k < l.length then l.drop (l.length - k) else l) = lastN l k := by
  by_cases h : k < l.length
  · simp [h, lastN]
  · have h0 : l.length - k = 0 := by omega
    simp [h, lastN, h0]

lemma lastN_append {α : Type} (A B : List α) (k : Nat) (h : k ≤ B.length) :
    lastN (A ++ B) k = lastN B k := by
  unfold lastN
  rw [List.length_append]
  have harith : A.length + B.length - k = A.length + (B.length - k) := by omega
  rw [harith, ← List.drop_drop, List.drop_left]

lemma lastN_eq_of_drop_one {α : Type} {l₁ l₂ : List α} (k : Nat)
    (hd : l₁.drop 1 = l₂.drop 1) (hl : l₁.length = l₂.length)
    (hk : k + 1 ≤ l₁.length) : lastN l₁ k = lastN l₂ k := by
  unfold lastN
  have e1 : l₁.drop (l₁.length - k) = (l₁.drop 1).drop (l₁.length - k - 1) := by
    rw [List.drop_drop]
    congr 1
    omega
  have e2 : l₂.drop (l₂.length - k) = (l₂.drop 1).drop (l₁.length - k - 1) := by
    rw [List.drop_drop]
    congr 1
    omega
  rw [e1, e2, hd]

lemma doneLines_drop_one (data : List Nat) : ∀ c, 10 ∈ data →
    (doneLines c data).drop 1 = (doneLines [] data).drop 1 := by
  induction data with
  | nil => intro c h; simp at h
  | cons b rest ih =>
    intro c h
    by_cases hb : b = 10
    · simp [doneLines, hb]
    · have h10 : 10 ∈ rest := by
        rcases List.mem_cons.mp h with h1 | h1
        · exact absurd h1.symm hb
        · exact h1
      simp only [doneLines, if_neg hb]
      rw [ih (c ++ [b]) h10, ih ([] ++ [b]) h10]

lemma pendSeg_of_mem (data : List Nat) : ∀ c, 10 ∈ data →
    pendSeg c data = pendSeg [] data := by
  induction data with
  | nil => intro c h; simp at h
  | cons b rest ih =>
    intro c h
    by_cases hb : b = 10
    · simp [pendSeg, hb]
    · have h10 : 10 ∈ rest := by
        rcases List.mem_cons.mp h with h1 | h1
        · exact absurd h1.symm hb
        · exact h1
      simp only [pendSeg, if_neg hb]
      rw [ih (c ++ [b]) h10, ih ([] ++ [b]) h10]

lemma lastN_doneLines_suffix (pre data : List Nat) (k : Nat) (h10 : 10 ∈ data)
    (hk : k + 1 ≤ data.count 10) :
    lastN (doneLines [] (pre ++ data)) k = lastN (doneLines [] data) k := by
  rw [doneLines_append]
  rw [lastN_append _ _ k (by rw [doneLines_length]; omega)]
  exact lastN_eq_of_drop_one k (doneLines_drop_one data _ h10)
    (by rw [doneLines_length, doneLines_length])
    (by rw [doneLines_length]; omega)

lemma tailRem_exit (contents : List Nat) (n : Nat) : ∀ fuel remaining,
    remaining ≤ fuel →
    tailRem contents n fuel remaining = 0 ∨
      n < (contents.drop (tailRem contents n fuel remaining)).count 10 := by
  intro fuel
  induction fuel with
  | zero =>
    intro remaining h
    have h0 : remaining = 0 := by omega
    subst h0
    simp [tailRem]
  | succ f ih =>
    intro remaining h
    by_cases hc : 0 < remaining ∧ (contents.drop remaining).count 10 ≤ n
    · rw [tailRem, if_pos hc]
      apply ih
      have hmin : 1 ≤ min readChunkSize remaining :=
        le_min (by norm_num [readChunkSize]) hc.1
      omega
    · rw [tailRem, if_neg hc]
      by_cases hr : remaining = 0
      · exact Or.inl hr
      · right
        push_neg at hc
        exact hc (Nat.pos_of_ne_zero hr)

lemma exists_first_lf (l : List Nat) (h : 10 ∈ l) :
    ∃ d1 d2, l = d1 ++ 10 :: d2 ∧ 10 ∉ d1 := by
  induction l with
  | nil => simp at h
  | cons b rest ih =>
    by_cases hb : b = 10
    · exact ⟨[], rest, by simp [hb], by simp⟩
    · have h10 : 10 ∈ rest := by
        rcases List.mem_cons.mp h with h1 | h1
        · exact absurd h1.symm hb
        · exact h1
      obtain ⟨d1, d2, hEq, hn⟩ := ih h10
      refine ⟨b :: d1, d2, by simp [hEq], ?_⟩
      intro hmem
      rcases List.mem_cons.mp hmem with h1 | h1
      · exact hb h1.symm
      · exact hn h1

/-- C2 (amended): the seek-tail of the last `n` lines. When splitting the
whole contents leaves no partial remainder (in particular whenever the
contents end with a line feed), `tailLastLines` returns the last `n`
complete lines (all of them when fewer exist) and no partial; otherwise it
returns the last `n - 1` complete lines plus the partial remainder of the
split (the final unterminated fragment with a lone trailing carriage return
stripped). -/
theorem tailLastLines_lastN (contents : List Nat) (n : Nat) (hn : 0 < n) :
    tailLastLines contents n =
      if (splitLines contents).2 = []
      then (lastN (splitLines contents).1 n, [])
      else (lastN (splitLines contents).1 (n - 1), (splitLines contents).2) := by
  have hn0 : ¬ n = 0 := by omega
  by_cases hlen : contents.length = 0
  · have hnil : contents = [] := List.length_eq_zero.mp hlen
    subst hnil
    simp [tailLastLines, hn0, splitLines, splitGo, trimTrailingCR_nil, lastN]
  · rcases tailRem_exit contents n contents.length contents.length le_rfl
      with h0 | hcount
    · -- the loop consumed the whole file: the data read is the full contents
      rw [tailLastLines, if_neg hn0, if_neg hlen]
      simp only [h0, List.drop_zero]
      by_cases hp : (splitLines contents).2 = []
      · have hne : ¬ ((splitLines contents).2 ≠ []) := fun hc => hc hp
        rw [if_neg hne, if_pos hp, ite_drop_eq_lastN]
      · rw [if_pos hp, if_neg hp, ite_drop_eq_lastN]
    · -- the data read is a strict suffix holding more than n line feeds
      set rem := tailRem contents n contents.length contents.length with hrem
      set data := contents.drop rem with hdata
      have hsplitc : contents.take rem ++ data = contents :=
        List.take_append_drop rem contents
      have h10 : 10 ∈ data := by
        have : 0 < data.count 10 := by omega
        exact List.count_pos_iff.mp this
      -- the partial of the suffix equals the partial of the whole contents
      have hpend : pendSeg [] contents = pendSeg [] data := by
        conv_lhs => rw [← hsplitc]
        rw [pendSeg_append, pendSeg_of_mem data _ h10]
      have hlines : ∀ k, k + 1 ≤ data.count 10 →
          lastN (doneLines [] contents) k = lastN (doneLines [] data) k := by
        intro k hk
        conv_lhs => rw [← hsplitc]
        exact lastN_doneLines_suffix _ data k h10 hk
      rw [tailLastLines, if_neg hn0, if_neg hlen]
      simp only [← hrem, ← hdata]
      rw [splitLines, splitGo_eq, splitLines, splitGo_eq]
      simp only
      rw [hpend]
      by_cases hp : trimTrailingCR (pendSeg [] data) = []
      · have hne : ¬ (trimTrailingCR (pendSeg [] data) ≠ []) := fun hc => hc hp
        rw [if_neg hne, if_pos hp, ite_drop_eq_lastN, hlines n (by omega)]
      · rw [if_pos hp, if_neg hp, ite_drop_eq_lastN, hlines (n - 1) (by omega)]

/-- C2 witness: tailing a three-line terminated file with n = 2 keeps
exactly the last two complete lines and no partial. -/
theorem tailLastLines_lastN_wit :
    0 < 2 ∧ tailLastLines [97, 10, 98, 10, 99, 10] 2 =
      (if (splitLines [97, 10, 98, 10, 99, 10]).2 = []
       then (lastN (splitLines [97, 10, 98, 10, 99, 10]).1 2, [])
       else (lastN (splitLines [97, 10, 98, 10, 99, 10]).1 (2 - 1),
         (splitLines [97, 10, 98, 10, 99, 10]).2)) :=
  ⟨by decide, tailLastLines_lastN [97, 10, 98, 10, 99, 10] 2 (by decide)⟩

/-- C2 counterexample: the contents "a\nb\n\r" do not end with a line
terminator (the last byte is a carriage return), so the claim as stated
demands the last n - 1 = 0 complete lines plus a partial holding the final
unterminated fragment; the code instead returns the last complete line
"b" and no partial, because the fragment is a lone carriage return which
`trimTrailingCR` reduces to the empty remainder. -/
theorem tailLastLines_cr_tail :
    tailLastLines [97, 10, 98, 10, 13] 1 = ([[98]], []) ∧
      ([97, 10, 98, 10, 13] : List Nat).getLast? = some 13 := by
  decide

/-! Update-flag invariants of the reader loops. -/

lemma chunkLoop_hadP_false (maxB : Nat) : ∀ fuel upd carry data,
    (∀ e ∈ (chunkLoop maxB false fuel upd carry data).1, e.isUpd = false) ∧
    (chunkLoop maxB false fuel upd carry data).2.2 = upd := by
  intro fuel
  induction fuel with
  | zero => intro upd carry data; simp [chunkLoop]
  | succ f ih =>
    intro upd carry data
    by_cases hd : data = []
    · simp [chunkLoop, hd]
    · rw [chunkLoop, if_neg hd]
      cases hfind : findLF data with
      | none =>
        dsimp only
        split
        · split
          · simp
          · simp
        · simp
      | some idx =>
        dsimp only
        constructor
        · intro e he
          rcases List.mem_cons.mp he with h1 | h1
          · simp [h1]
          · exact (ih (upd || (false && !upd)) [] (data.drop (idx + 1))).1 e h1
        · have h2 := (ih (upd || (false && !upd)) [] (data.drop (idx + 1))).2
          rw [h2]
          simp

lemma chunkLoop_upd_true (maxB : Nat) (hadP : Bool) : ∀ fuel carry data,
    (∀ e ∈ (chunkLoop maxB hadP fuel true carry data).1, e.isUpd = false) ∧
    (chunkLoop maxB hadP fuel true carry data).2.2 = true := by
  intro fuel
  induction fuel with
  | zero => intro carry data; simp [chunkLoop]
  | succ f ih =>
    intro carry data
    by_cases hd : data = []
    · simp [chunkLoop, hd]
    · rw [chunkLoop, if_neg hd]
      cases hfind : findLF data with
      | none =>
        dsimp only
        split
        · split
          · simp
          · simp
        · simp
      | some idx =>
        dsimp only
        constructor
        · intro e he
          rcases List.mem_cons.mp he with h1 | h1
          · simp [h1]
          · exact (ih [] (data.drop (idx + 1))).1 e h1
        · exact (ih [] (data.drop (idx + 1))).2

lemma chunkLoop_no_upd (maxB : Nat) (hadP upd : Bool)
    (h : (hadP && !upd) = false) : ∀ fuel carry data,
    (∀ e ∈ (chunkLoop maxB hadP fuel upd carry data).1, e.isUpd = false) ∧
    (chunkLoop maxB hadP fuel upd carry data).2.2 = upd := by
  intro fuel carry data
  cases hh : hadP with
  | false => exact chunkLoop_hadP_false maxB fuel upd carry data
  | true =>
    cases hu : upd with
    | true => exact chunkLoop_upd_true maxB true fuel carry data
    | false => rw [hh, hu] at h; simp at h

lemma chunkLoop_first_upd (maxB : Nat) : ∀ fuel carry data,
    ((chunkLoop maxB true fuel false carry data).1 = [] ∧
      (chunkLoop maxB true fuel false carry data).2.2 = false) ∨
    (∃ e t, (chunkLoop maxB true fuel false carry data).1 = e :: t ∧
      e.isUpd = true ∧ (∀ x ∈ t, x.isUpd = false) ∧
      (chunkLoop maxB true fuel false carry data).2.2 = true) := by
  intro fuel carry data
  cases fuel with
  | zero => left; simp [chunkLoop]
  | succ f =>
    by_cases hd : data = []
    · left; simp [chunkLoop, hd]
    · rw [chunkLoop, if_neg hd]
      cases hfind : findLF data with
      | none =>
        dsimp only
        split
        · split
          · right
            refine ⟨_, [], rfl, rfl, by simp, rfl⟩
          · left; exact ⟨rfl, rfl⟩
        · left; exact ⟨rfl, rfl⟩
      | some idx =>
        dsimp only
        right
        have hrec := chunkLoop_upd_true maxB true f [] (data.drop (idx + 1))
        refine ⟨_, _, rfl, rfl, ?_, ?_⟩
        · intro x hx
          exact hrec.1 x (by simpa using hx)
        · simpa using hrec.2

lemma chunkLoop_carry_ne (maxB : Nat) (hadP : Bool) : ∀ fuel upd carry data,
    carry ≠ [] →
    (chunkLoop maxB hadP fuel upd carry data).1 ≠ [] ∨
    (chunkLoop maxB hadP fuel upd carry data).2.1 ≠ [] := by
  intro fuel upd carry data h
  cases fuel with
  | zero => right; simpa [chunkLoop] using h
  | succ f =>
    by_cases hd : data = []
    · right; simpa [chunkLoop, hd] using h
    · rw [chunkLoop, if_neg hd]
      cases hfind : findLF data with
      | none =>
        dsimp only
        split
        · split
          · left; simp
          · right; simp [h]
        · right; simp [h]
      | some idx => left; simp

lemma readLoop_no_upd (maxB : Nat) (hadP : Bool) : ∀ fuel (upd : Bool),
    (hadP && !upd) = false → ∀ carry data,
    (∀ e ∈ (readLoop maxB hadP fuel upd carry data).1, e.isUpd = false) ∧
    (readLoop maxB hadP fuel upd carry data).2.2 = upd := by
  intro fuel
  induction fuel with
  | zero => intro upd h carry data; simp [readLoop]
  | succ f ih =>
    intro upd h carry data
    by_cases hd : data = []
    · simp [readLoop, hd]
    · rw [readLoop, if_neg hd]
      dsimp only
      have hc := chunkLoop_no_upd maxB hadP upd h
        (data.take readChunkSize).length carry (data.take readChunkSize)
      have hr := ih ((chunkLoop maxB hadP (data.take readChunkSize).length upd
          carry (data.take readChunkSize)).2.2) (by rw [hc.2]; exact h)
        ((chunkLoop maxB hadP (data.take readChunkSize).length upd
          carry (data.take readChunkSize)).2.1) (data.drop readChunkSize)
      constructor
      · intro e he
        rcases List.mem_append.mp he with h1 | h1
        · exact hc.1 e h1
        · exact hr.1 e h1
      · rw [hr.2, hc.2]

lemma readLoop_first_upd (maxB : Nat) : ∀ fuel carry data,
    ((readLoop maxB true fuel false carry data).1 = [] ∧
      (readLoop maxB true fuel false carry data).2.2 = false) ∨
    (∃ e t, (readLoop maxB true fuel false carry data).1 = e :: t ∧
      e.isUpd = true ∧ (∀ x ∈ t, x.isUpd = false) ∧
      (readLoop maxB true fuel false carry data).2.2 = true) := by
  intro fuel
  induction fuel with
  | zero => intro carry data; left; simp [readLoop]
  | succ f ih =>
    intro carry data
    by_cases hd : data = []
    · left; simp [readLoop, hd]
    · rw [readLoop, if_neg hd]
      dsimp only
      rcases chunkLoop_first_upd maxB (data.take readChunkSize).length carry
        (data.take readChunkSize) with hcl | hcr
      · rw [hcl.1, hcl.2]
        rcases ih ((chunkLoop maxB true (data.take readChunkSize).length false
          carry (data.take readChunkSize)).2.1) (data.drop readChunkSize)
          with hl | hr
        · left; simpa using hl
        · right; simpa using hr
      · obtain ⟨e, t, hev, heu, htu, hupd⟩ := hcr
        rw [hev, hupd]
        have hrest := readLoop_no_upd maxB true f true (by simp)
          ((chunkLoop maxB true (data.take readChunkSize).length false carry
            (data.take readChunkSize)).2.1) (data.drop readChunkSize)
        right
        refine ⟨e, t ++ (readLoop maxB true f true
          ((chunkLoop maxB true (data.take readChunkSize).length false carry
            (data.take readChunkSize)).2.1) (data.drop readChunkSize)).1,
          by simp, heu, ?_, hrest.2⟩
        intro x hx
        rcases List.mem_append.mp hx with h1 | h1
        · exact htu x h1
        · exact hrest.1 x h1

lemma readLoop_carry_ne (maxB : Nat) (hadP : Bool) : ∀ fuel upd carry data,
    carry ≠ [] →
    (readLoop maxB hadP fuel upd carry data).1 ≠ [] ∨
    (readLoop maxB hadP fuel upd carry data).2.1 ≠ [] := by
  intro fuel
  induction fuel with
  | zero => intro upd carry data h; right; simpa [readLoop] using h
  | succ f ih =>
    intro upd carry data h
    by_cases hd : data = []
    · right; simpa [readLoop, hd] using h
    · rw [readLoop, if_neg hd]
      dsimp only
      rcases chunkLoop_carry_ne maxB hadP (data.take readChunkSize).length upd
        carry (data.take readChunkSize) h with h1 | h1
      · left
        intro hcontra
        exact h1 (List.append_eq_nil.mp hcontra).1
      · rcases ih ((chunkLoop maxB hadP (data.take readChunkSize).length upd
          carry (data.take readChunkSize)).2.2)
          ((chunkLoop maxB hadP (data.take readChunkSize).length upd carry
            (data.take readChunkSize)).2.1) (data.drop readChunkSize) h1
          with h2 | h2
        · left
          intro hcontra
          exact h2 (List.append_eq_nil.mp hcontra).2
        · right; exact h2

lemma finishRead_events_upd (maxB : Nat) (hadP upd : Bool) (carry : List Nat) :
    ∀ e ∈ (finishRead maxB hadP upd carry).1, e.isUpd = (hadP && !upd) := by
  intro e he
  by_cases hc : carry = []
  · simp [finishRead, hc] at he
  · rw [finishRead, if_neg hc] at he
    dsimp only at he
    by_cases ht : (truncateLineBytes (trimTrailingCR carry) maxB).2 = true
    · rw [if_pos ht] at he
      simp at he
      simp [he]
    · rw [if_neg ht] at he
      simp at he
      simp [he]

lemma finishRead_ne_nil (maxB : Nat) (hadP upd : Bool) (carry : List Nat)
    (h : carry ≠ []) :
    ∃ ev, (finishRead maxB hadP upd carry).1 = [ev] ∧
      ev.isUpd = (hadP && !upd) := by
  rw [finishRead, if_neg h]
  dsimp only
  by_cases ht : (truncateLineBytes (trimTrailingCR carry) maxB).2 = true
  · rw [if_pos ht]
    exact ⟨_, rfl, rfl⟩
  · rw [if_neg ht]
    exact ⟨_, rfl, rfl⟩

/-- Helper shared by several claims: when no previously-displayed partial is
in play, no event of a `readFromOffset` call carries the update flag. -/
lemma readFromOffset_all_not_upd (st : FileState) (offset maxB : Nat)
    (inc : Bool) (data : List Nat)
    (h : (st.pendDisp && inc && decide (st.pend ≠ [])) = false) :
    ∀ e ∈ (readFromOffset st offset maxB inc data).1, e.isUpd = false := by
  intro e he
  rw [readFromOffset] at he
  dsimp only at he
  rw [h] at he
  rcases List.mem_append.mp he with h1 | h1
  · exact (readLoop_no_upd maxB false (data.length + 1) false (by simp) _
      data).1 e h1
  · have := finishRead_events_upd maxB false
      ((readLoop maxB false (data.length + 1) false
        (if inc = true ∧ st.pend ≠ [] then st.pend else []) data).2.2)
      ((readLoop maxB false (data.length + 1) false
        (if inc = true ∧ st.pend ≠ [] then st.pend else []) data).2.1) e h1
    rw [this]
    simp

/-- C3: Update-flag semantics of an incremental read. In every
`readFromOffset` call with `includeExistingPartial` set, when a
previously-displayed non-empty partial exists, the call emits at least one
event, exactly the first emitted event carries the update flag, and every
later event of the call does not; when no displayed non-empty partial
existed, no event of the call carries the update flag. -/
theorem readFromOffset_update_flags (st : FileState) (offset maxB : Nat)
    (data : List Nat) :
    (st.pendDisp = true ∧ st.pend ≠ [] →
      ∃ e t, (readFromOffset st offset maxB true data).1 = e :: t ∧
        e.isUpd = true ∧ ∀ x ∈ t, x.isUpd = false) ∧
    (¬(st.pendDisp = true ∧ st.pend ≠ []) →
      ∀ x ∈ (readFromOffset st offset maxB true data).1, x.isUpd = false) := by
  constructor
  · rintro ⟨hdisp, hpend⟩
    have hdec : decide (st.pend ≠ []) = true := decide_eq_true hpend
    rw [readFromOffset]
    dsimp only
    rw [hdisp, hdec, if_pos (And.intro rfl hpend)]
    simp only [Bool.and_true, Bool.true_and]
    set r := readLoop maxB true (data.length + 1) false st.pend data with hrdef
    have hfu := readLoop_first_upd maxB (data.length + 1) st.pend data
    rw [← hrdef] at hfu
    have hcn := readLoop_carry_ne maxB true (data.length + 1) false st.pend
      data hpend
    rw [← hrdef] at hcn
    rcases hfu with ⟨h1, h2⟩ | ⟨e, t, hev, heu, htu, hupd⟩
    · rw [h1, h2]
      rcases hcn with hc | hc
      · exact absurd h1 hc
      · obtain ⟨ev, hfev, hevu⟩ := finishRead_ne_nil maxB true false r.2.1 hc
        refine ⟨ev, [], ?_, by simpa using hevu, by simp⟩
        rw [List.nil_append, hfev]
    · rw [hev, hupd]
      refine ⟨e, t ++ (finishRead maxB true true r.2.1).1, by simp, heu, ?_⟩
      intro x hx
      rcases List.mem_append.mp hx with hx1 | hx1
      · exact htu x hx1
      · have hxx := finishRead_events_upd maxB true true r.2.1 x hx1
        simpa using hxx
  · intro hn
    apply readFromOffset_all_not_upd
    cases hdisp : st.pendDisp with
    | false => simp
    | true =>
      have hp : st.pend = [] := by
        by_contra hne
        exact hn ⟨hdisp, hne⟩
      simp [hp]

/-- C3 witness: a displayed partial "a" followed by the appended bytes
"b\n" yields exactly one event, the completed line "ab", flagged as an
update. -/
theorem readFromOffset_update_flags_wit :
    ((⟨0, [97], true⟩ : FileState).pendDisp = true ∧
      (⟨0, [97], true⟩ : FileState).pend ≠ []) ∧
    (∃ e t, (readFromOffset ⟨0, [97], true⟩ 0 5 true [98, 10]).1 = e :: t ∧
      e.isUpd = true ∧ ∀ x ∈ t, x.isUpd = false) :=
  ⟨by decide, (readFromOffset_update_flags ⟨0, [97], true⟩ 0 5 [98, 10]).1
    (by decide)⟩

/-- C4: Truncation recovery. When the file's current size is strictly less
than the stored offset, `readNew` behaves exactly like a fresh read of the
whole contents from offset 0 with the partial and its delivered flag
discarded: the resulting offset is the current size and no event of the
call carries the update flag. -/
theorem readNew_truncation (st : FileState) (maxB : Nat) (contents : List Nat)
    (h : contents.length < st.offset) :
    readNew st maxB contents =
      readFromOffset ⟨0, [], false⟩ 0 maxB true contents ∧
    (readNew st maxB contents).2.offset = contents.length ∧
    ∀ e ∈ (readNew st maxB contents).1, e.isUpd = false := by
  have hne : ¬ contents.length = st.offset := by omega
  have heq : readNew st maxB contents =
      readFromOffset ⟨0, [], false⟩ 0 maxB true contents := by
    rw [readNew, if_neg hne]
    dsimp only
    rw [if_pos h]
    rw [List.drop_zero]
  refine ⟨heq, ?_, ?_⟩
  · rw [heq, readFromOffset]
    simp
  · rw [heq]
    exact readFromOffset_all_not_upd _ 0 maxB true contents (by simp)

/-- C4 witness: a file shrunk from offset 5 to the three bytes "hi\n" is
re-read from scratch as one plain line event. -/
theorem readNew_truncation_wit :
    ([104, 105, 10] : List Nat).length < (⟨5, [97], true⟩ : FileState).offset ∧
    (readNew ⟨5, [97], true⟩ 1024 [104, 105, 10] =
      readFromOffset ⟨0, [], false⟩ 0 1024 true [104, 105, 10] ∧
    (readNew ⟨5, [97], true⟩ 1024 [104, 105, 10]).2.offset =
      ([104, 105, 10] : List Nat).length ∧
    ∀ e ∈ (readNew ⟨5, [97], true⟩ 1024 [104, 105, 10]).1, e.isUpd = false) :=
  ⟨by decide, readNew_truncation ⟨5, [97], true⟩ 1024 [104, 105, 10]
    (by decide)⟩

/-- C9: no-growth frame property. When the file's current size equals the
stored offset, `readNew` emits no line events and leaves the state (offset,
partial, delivered flag) unchanged. -/
theorem readNew_no_growth (st : FileState) (maxB : Nat) (contents : List Nat)
    (h : contents.length = st.offset) :
    readNew st maxB contents = ([], st) := by
  rw [readNew, if_pos h]

/-- C9 witness: a two-byte file whose stored offset is already 2 produces
no events and an unchanged state. -/
theorem readNew_no_growth_wit :
    ([97, 98] : List Nat).length = (⟨2, [97, 98], true⟩ : FileState).offset ∧
    readNew ⟨2, [97, 98], true⟩ 1024 [97, 98] = ([], ⟨2, [97, 98], true⟩) :=
  ⟨by decide, readNew_no_growth ⟨2, [97, 98], true⟩ 1024 [97, 98] (by decide)⟩

/-! Lemmas for the oversized-line policy (claim C5). -/

lemma findLF_eq_none (data : List Nat) (h : 10 ∉ data) : findLF data = none := by
  induction data with
  | nil => rfl
  | cons b rest ih =>
    have hb : b ≠ 10 := fun hb => h (hb ▸ List.mem_cons_self b rest)
    have hrest : 10 ∉ rest := fun hr => h (List.mem_cons_of_mem b hr)
    simp [findLF, hb, ih hrest]

lemma chunkLoop_nil (maxB : Nat) (hadP : Bool) (fuel : Nat) (upd : Bool)
    (carry : List Nat) : chunkLoop maxB hadP fuel upd carry [] = ([], carry, upd) := by
  cases fuel <;> simp [chunkLoop]

lemma readLoop_nil (maxB : Nat) (hadP : Bool) (fuel : Nat) (upd : Bool)
    (carry : List Nat) : readLoop maxB hadP fuel upd carry [] = ([], carry, upd) := by
  cases fuel <;> simp [readLoop]

/-- C5 (amended): oversized-line policy for a line contained in one read
chunk. A single line (no terminator within it) longer than the positive
byte ceiling but not longer than one read chunk, read with no held partial,
yields exactly one line event: non-partial, its text the content cut to the
ceiling with the visible truncation marker appended, and the accumulator
(the held partial of the resulting state) empty. Lines that span several
read chunks can flush one such truncated event per chunk boundary at which
the accumulator exceeds the ceiling (see the counterexample). -/
theorem readFromOffset_oversized (st : FileState) (offset maxB : Nat)
    (inc : Bool) (data : List Nat) (hmax : 0 < maxB) (hlf : 10 ∉ data)
    (hlen : maxB < data.length) (hchunk : data.length ≤ readChunkSize)
    (hpend : st.pend = []) :
    readFromOffset st offset maxB inc data =
      ([⟨data.take maxB ++ truncMarker, false, false⟩],
        ⟨offset + data.length, [], false⟩) := by
  have hdec : decide (st.pend ≠ []) = false := by simp [hpend]
  have hdata : data ≠ [] := by
    apply List.ne_nil_of_length_pos
    omega
  rw [readFromOffset]
  rw [hdec, Bool.and_false]
  rw [if_neg (fun hcon => hcon.2 hpend)]
  obtain ⟨flen, hflen⟩ : ∃ k, data.length = k + 1 := by
    refine ⟨data.length - 1, by omega⟩
  rw [readLoop, if_neg hdata]
  dsimp only
  rw [List.take_of_length_le hchunk, List.drop_eq_nil_of_le hchunk, hflen,
    chunkLoop, if_neg hdata, findLF_eq_none data hlf]
  dsimp only
  simp only [List.nil_append]
  rw [if_pos (show 0 < maxB ∧ maxB < data.length from ⟨hmax, hlen⟩)]
  have ht : truncateLineBytes data maxB = (data.take maxB ++ truncMarker, true) := by
    rw [truncateLineBytes,
      if_pos (show 0 < maxB ∧ maxB < data.length from ⟨hmax, hlen⟩)]
  rw [ht]
  dsimp only
  rw [if_pos rfl, readLoop_nil, finishRead, if_pos rfl]
  simp

/-- C5 witness: ceiling 1, a two-byte terminator-free line "aa": one
truncated, non-partial event with text "a [truncated]". -/
theorem readFromOffset_oversized_wit :
    (0 < 1 ∧ (10 : Nat) ∉ ([97, 97] : List Nat) ∧
      1 < ([97, 97] : List Nat).length ∧
      ([97, 97] : List Nat).length ≤ readChunkSize ∧
      (⟨0, [], false⟩ : FileState).pend = []) ∧
    readFromOffset ⟨0, [], false⟩ 0 1 true [97, 97] =
      ([⟨([97, 97] : List Nat).take 1 ++ truncMarker, false, false⟩],
        ⟨0 + ([97, 97] : List Nat).length, [], false⟩) :=
  ⟨by decide, readFromOffset_oversized ⟨0, [], false⟩ 0 1 true [97, 97]
    (by decide) (by decide) (by decide) (by decide) (by decide)⟩

lemma take_replicate_of_le {α : Type} (a : α) : ∀ (k n : Nat), k ≤ n →
    (List.replicate n a).take k = List.replicate k a := by
  intro k
  induction k with
  | zero => intro n h; simp
  | succ k ih =>
    intro n h
    cases n with
    | zero => omega
    | succ m =>
      rw [List.replicate_succ, List.take_succ_cons, List.replicate_succ,
        ih m (by omega)]

lemma drop_replicate_eq {α : Type} (a : α) : ∀ (k n : Nat),
    (List.replicate n a).drop k = List.replicate (n - k) a := by
  intro k
  induction k with
  | zero => intro n; simp
  | succ k ih =>
    intro n
    cases n with
    | zero => simp
    | succ m =>
      rw [List.replicate_succ, List.drop_succ_cons, ih m]
      congr 1
      omega

/-- A line-feed-free chunk that makes the accumulator exceed a positive
ceiling is flushed as one truncated, non-partial event whose text is the
data cut to the ceiling with the marker appended, after which the
accumulator is empty. -/
lemma chunkLoop_overflow (maxB : Nat) (hadP upd : Bool) (k : Nat)
    (data : List Nat) (hd : data ≠ []) (hlf : 10 ∉ data) (hmax : 0 < maxB)
    (hover : maxB < data.length) :
    chunkLoop maxB hadP (k + 1) upd [] data =
      ([⟨data.take maxB ++ truncMarker, false, hadP && !upd⟩], [],
        upd || (hadP && !upd)) := by
  rw [chunkLoop, if_neg hd, findLF_eq_none data hlf]
  dsimp only
  simp only [List.nil_append]
  rw [if_pos (show 0 < maxB ∧ maxB < data.length from ⟨hmax, hover⟩)]
  have ht : truncateLineBytes data maxB = (data.take maxB ++ truncMarker, true) := by
    rw [truncateLineBytes,
      if_pos (show 0 < maxB ∧ maxB < data.length from ⟨hmax, hover⟩)]
  rw [ht]
  dsimp only
  rw [if_pos rfl]

lemma replicate_nat_ne_nil (n : Nat) (a : Nat) (h : 0 < n) :
    List.replicate n a ≠ [] := by
  apply List.ne_nil_of_length_pos
  simpa using h

/-- C5 counterexample: with ceiling 1, a single 4098-byte line with no
terminator, read with no held partial, yields two truncated, non-partial
line events (one flushed at the end of each 4096-byte read chunk), not
exactly one as the claim states. -/
theorem readFromOffset_oversized_two_events :
    (readFromOffset ⟨0, [], false⟩ 0 1 true (List.replicate 4098 97)).1 =
      [⟨[97] ++ truncMarker, false, false⟩,
        ⟨[97] ++ truncMarker, false, false⟩] := by
  have hc1 : (List.replicate 4098 97 : List Nat).take readChunkSize =
      List.replicate 4096 97 := by
    simp only [readChunkSize]
    exact take_replicate_of_le 97 4096 4098 (by norm_num)
  have hc2 : (List.replicate 4098 97 : List Nat).drop readChunkSize =
      List.replicate 2 97 := by
    simp only [readChunkSize]
    rw [drop_replicate_eq 97 4096 4098]
  have hc3 : (List.replicate 2 97 : List Nat).take readChunkSize =
      List.replicate 2 97 :=
    List.take_of_length_le (by simp [readChunkSize])
  have hc4 : (List.replicate 2 97 : List Nat).drop readChunkSize = [] :=
    List.drop_eq_nil_of_le (by simp [readChunkSize])
  have hno10a : (10 : Nat) ∉ List.replicate 4096 97 := by
    intro hmem
    rcases List.mem_replicate.mp hmem with ⟨_, h2⟩
    norm_num at h2
  have hno10b : (10 : Nat) ∉ List.replicate 2 97 := by
    intro hmem
    rcases List.mem_replicate.mp hmem with ⟨_, h2⟩
    norm_num at h2
  have hova : 1 < (List.replicate 4096 97 : List Nat).length := by
    rw [List.length_replicate]
    norm_num
  have hovb : 1 < (List.replicate 2 97 : List Nat).length := by
    rw [List.length_replicate]
    norm_num
  rw [readFromOffset]
  dsimp only
  simp only [Bool.false_and]
  rw [if_neg (fun hc => hc.2 rfl)]
  have hflen : (List.replicate 4098 97 : List Nat).length + 1 = 4098 + 1 := by
    rw [List.length_replicate]
  rw [hflen, readLoop, if_neg (replicate_nat_ne_nil 4098 97 (by norm_num))]
  dsimp only
  rw [hc1, hc2]
  have hclen : (List.replicate 4096 97 : List Nat).length = 4095 + 1 := by
    rw [List.length_replicate]
  rw [hclen,
    chunkLoop_overflow 1 false false 4095 (List.replicate 4096 97)
      (replicate_nat_ne_nil 4096 97 (by norm_num)) hno10a (by norm_num) hova]
  dsimp only
  simp only [Bool.false_and, Bool.or_false]
  rw [show (4098 : Nat) = 4097 + 1 from by norm_num, readLoop,
    if_neg (replicate_nat_ne_nil 2 97 (by norm_num))]
  dsimp only
  rw [hc3, hc4]
  have hclen2 : (List.replicate 2 97 : List Nat).length = 1 + 1 := by
    rw [List.length_replicate]
  rw [hclen2,
    chunkLoop_overflow 1 false false 1 (List.replicate 2 97)
      (replicate_nat_ne_nil 2 97 (by norm_num)) hno10b (by norm_num) hovb]
  dsimp only
  rw [readLoop_nil]
  dsimp only
  rw [finishRead, if_pos rfl]
  rw [take_replicate_of_le 97 1 4096 (by norm_num),
    take_replicate_of_le 97 1 2 (by norm_num)]
  simp

/-- C6: text-classification decision. For every byte sample (and every
sniffing function): empty content is text; a NUL byte anywhere forces
binary; otherwise the sniffed type decides when it has the textual prefix
or is one of the allow-listed structured formats; failing that, the sample
is text exactly when it is valid UTF-8. -/
theorem isTextData_classification (sniff : List Nat → String) (data : List Nat) :
    isTextData sniff data =
      if data = [] then true
      else if 0 ∈ data then false
      else if strHasPfx (sniff data) textSlashPfx = true ∨
          sniff data ∈ [ctJSON, ctXML, ctJS, ctForm] then true
      else utf8Valid data := by
  rw [isTextData]
  by_cases h1 : data = []
  · simp [h1]
  · rw [if_neg (fun hc => h1 (List.length_eq_zero.mp hc)), if_neg h1]
    by_cases h2 : 0 ∈ data
    · rw [if_pos (by simpa [List.contains] using h2), if_pos h2]
    · rw [if_neg (by simpa [List.contains] using h2), if_neg h2]
      by_cases h3 : strHasPfx (sniff data) textSlashPfx = true
      · rw [if_pos h3, if_pos (Or.inl h3)]
      · rw [if_neg h3]
        by_cases h4 : sniff data = ctJSON ∨ sniff data = ctXML ∨
            sniff data = ctJS ∨ sniff data = ctForm
        · rw [if_pos h4, if_pos (Or.inr (by simpa using h4))]
        · rw [if_neg h4, if_neg ?_]
          intro hc
          rcases hc with hc | hc
          · exact h3 hc
          · exact h4 (by simpa using hc)

/-- C7: include/exclude matching. The path passes exactly when (the include
list is empty or some include pattern matches) and no exclude pattern
matches — so any exclude match rejects regardless of the include result —
where a pattern matches per its own mode: a glob containing a path
separator against the slash-normalized relative path, a separator-free
glob against the base file name only, a regex against the slash-normalized
relative path. The hypothesis records that compiled patterns carry the
path-mode flag exactly when the glob contains a separator (as
`compilePatterns` sets it). -/
theorem shouldInclude_spec (pm fm rm : String → String → Bool) (sep : Char)
    (incs excs : List Pat) (name rel : String)
    (hmode : ∀ p ∈ incs ++ excs, p.kind = PatKind.glob →
      p.pathPat = usesPathPattern p.globPat) :
    (shouldInclude pm fm rm sep incs excs name rel = true ↔
      ((incs = [] ∨ ∃ p ∈ incs, patMatchSpec pm fm rm sep name rel p = true) ∧
        ∀ p ∈ excs, patMatchSpec pm fm rm sep name rel p = false)) := by
  have hm : ∀ p, p ∈ incs ++ excs →
      matchCompiledPattern pm fm rm sep p name rel =
        patMatchSpec pm fm rm sep name rel p := by
    intro p hp
    cases hk : p.kind with
    | regex => simp [matchCompiledPattern, patMatchSpec, hk]
    | glob => simp [matchCompiledPattern, patMatchSpec, hk, hmode p hp hk]
  have hmi : ∀ p ∈ incs, matchCompiledPattern pm fm rm sep p name rel =
      patMatchSpec pm fm rm sep name rel p :=
    fun p hp => hm p (List.mem_append.mpr (Or.inl hp))
  have hme : ∀ p ∈ excs, matchCompiledPattern pm fm rm sep p name rel =
      patMatchSpec pm fm rm sep name rel p :=
    fun p hp => hm p (List.mem_append.mpr (Or.inr hp))
  rw [shouldInclude]
  by_cases h0 : incs = [] ∧ excs = []
  · rw [if_pos h0]
    simp [h0.1, h0.2]
  · rw [if_neg h0]
    by_cases h1 : incs ≠ [] ∧
        incs.any (fun p => matchCompiledPattern pm fm rm sep p name rel) = false
    · rw [if_pos h1]
      simp only [Bool.false_eq_true, false_iff]
      rintro ⟨hincl, _⟩
      rcases hincl with hnil | ⟨p, hp, hmatch⟩
      · exact h1.1 hnil
      · have hfalse := (List.any_eq_false.mp h1.2) p hp
        apply hfalse
        rw [hmi p hp]
        exact hmatch
    · rw [if_neg h1]
      by_cases h2 : excs.any
          (fun p => matchCompiledPattern pm fm rm sep p name rel) = true
      · rw [if_pos h2]
        simp only [Bool.false_eq_true, false_iff]
        rintro ⟨_, hexc⟩
        obtain ⟨p, hp, hpm⟩ := List.any_eq_true.mp h2
        have hex := hexc p hp
        rw [hme p hp] at hpm
        rw [hex] at hpm
        exact Bool.false_eq_true.mp hpm
      · rw [if_neg h2]
        simp only [true_iff]
        constructor
        · by_cases hni : incs = []
          · exact Or.inl hni
          · right
            have hany : incs.any
                (fun p => matchCompiledPattern pm fm rm sep p name rel) = true := by
              rcases Bool.eq_false_or_eq_true
                (incs.any (fun p => matchCompiledPattern pm fm rm sep p name rel))
                with ht | hf
              · exact ht
              · exact absurd ⟨hni, hf⟩ h1
            obtain ⟨p, hp, hpm⟩ := List.any_eq_true.mp hany
            exact ⟨p, hp, by rw [← hmi p hp]; exact hpm⟩
        · intro p hp
          have hf : excs.any
              (fun p => matchCompiledPattern pm fm rm sep p name rel) = false := by
            rcases Bool.eq_false_or_eq_true
              (excs.any (fun p => matchCompiledPattern pm fm rm sep p name rel))
              with ht | hf
            · exact absurd ht h2
            · exact hf
          have hnt := List.any_eq_false.mp hf p hp
          simp only [Bool.not_eq_true] at hnt
          rw [← hme p hp]
          exact hnt

/-- C7 witness: a single separator-free include glob "*.log", no excludes,
against base name "app.log" and relative path "d/app.log". -/
theorem shouldInclude_spec_wit :
    (∀ p ∈ ([⟨logGlob, PatKind.glob, logGlob, emptyStr, false⟩] : List Pat)
        ++ ([] : List Pat),
      p.kind = PatKind.glob → p.pathPat = usesPathPattern p.globPat) ∧
    (shouldInclude (fun a b => a == b) (fun a b => a == b) (fun a b => a == b)
        slashChar [⟨logGlob, PatKind.glob, logGlob, emptyStr, false⟩] []
        nameLog relLog = true ↔
      (([⟨logGlob, PatKind.glob, logGlob, emptyStr, false⟩] : List Pat) = [] ∨
        ∃ p ∈ ([⟨logGlob, PatKind.glob, logGlob, emptyStr, false⟩] : List Pat),
          patMatchSpec (fun a b => a == b) (fun a b => a == b)
            (fun a b => a == b) slashChar nameLog relLog p = true) ∧
      ∀ p ∈ ([] : List Pat),
        patMatchSpec (fun a b => a == b) (fun a b => a == b)
          (fun a b => a == b) slashChar nameLog relLog p = false) :=
  ⟨by decide, shouldInclude_spec (fun a b => a == b) (fun a b => a == b)
    (fun a b => a == b) slashChar
    [⟨logGlob, PatKind.glob, logGlob, emptyStr, false⟩] [] nameLog relLog
    (by decide)⟩

/-- C8: directory removal pruning. Removing a watched directory drops it
from the watch set (other directories stay) and keeps exactly those
tracked files whose path does not extend the directory path followed by
the path separator; tracked files outside the directory remain. -/
theorem removePath_prunes (watched : List String)
    (states : List (String × FileState)) (sep : Char) (p : String)
    (hw : p ∈ watched) (hnd : watched.Nodup) :
    p ∉ (removePath watched states sep p).1 ∧
    (∀ q ∈ watched, q ≠ p → q ∈ (removePath watched states sep p).1) ∧
    (∀ kv, kv ∈ (removePath watched states sep p).2 ↔
      kv ∈ states ∧ strHasPfx kv.1 (p.push sep) = false) := by
  rw [removePath, if_pos hw]
  refine ⟨?_, ?_, ?_⟩
  · exact hnd.not_mem_erase
  · intro q hq hne
    exact (List.mem_erase_of_ne hne).mpr hq
  · intro kv
    simp [List.mem_filter]

/-- C8 witness: removing watched directory "d" prunes the tracked file
"d/x" and keeps "e/x". -/
theorem removePath_prunes_wit :
    (dirStr ∈ [dirStr] ∧ ([dirStr] : List String).Nodup) ∧
    (dirStr ∉ (removePath [dirStr]
        [(fileUnder, ⟨0, [], false⟩), (fileOut, ⟨0, [], false⟩)]
        slashChar dirStr).1 ∧
    (∀ q ∈ [dirStr], q ≠ dirStr → q ∈ (removePath [dirStr]
        [(fileUnder, ⟨0, [], false⟩), (fileOut, ⟨0, [], false⟩)]
        slashChar dirStr).1) ∧
    (∀ kv, kv ∈ (removePath [dirStr]
        [(fileUnder, ⟨0, [], false⟩), (fileOut, ⟨0, [], false⟩)]
        slashChar dirStr).2 ↔
      kv ∈ [(fileUnder, (⟨0, [], false⟩ : FileState)),
        (fileOut, ⟨0, [], false⟩)] ∧
      strHasPfx kv.1 (dirStr.push slashChar) = false)) :=
  ⟨⟨by decide, by decide⟩, removePath_prunes [dirStr]
    [(fileUnder, ⟨0, [], false⟩), (fileOut, ⟨0, [], false⟩)]
    slashChar dirStr (by decide) (by decide)⟩

/-- C10: every compiled regex pattern is matched against the
slash-normalized relative path only, never against the bare file name
(the result is independent of the name argument), and both the force-regex
flag and the explicit "re:" marker produce regex-kind patterns; under the
force-regex flag every successfully compiled pattern is regex-kind. -/
theorem compiled_regex_rel_only :
    (∀ (pm fm rm : String → String → Bool) (sep : Char) (p : Pat)
        (name1 name2 rel : String), p.kind = PatKind.regex →
      matchCompiledPattern pm fm rm sep p name1 rel =
        rm p.rePat (toSlash sep rel) ∧
      matchCompiledPattern pm fm rm sep p name1 rel =
        matchCompiledPattern pm fm rm sep p name2 rel) ∧
    (∀ v, (patternKindFor v true).1 = PatKind.regex) ∧
    (∀ v, strHasPfx v rePfxStr = true →
      (patternKindFor v false).1 = PatKind.regex) ∧
    (∀ (trimSp : String → String) (rcOk validG : String → Bool)
        (values : List String) (pats : List Pat),
      compilePatterns trimSp rcOk validG true values = some pats →
      ∀ p ∈ pats, p.kind = PatKind.regex) := by
  refine ⟨?_, ?_, ?_, ?_⟩
  · intro pm fm rm sep p n1 n2 rel hk
    constructor <;> simp [matchCompiledPattern, hk]
  · intro v
    simp [patternKindFor]
  · intro v h
    simp [patternKindFor, h]
  · intro trimSp rcOk validG values
    induction values with
    | nil =>
      intro pats h p hp
      simp [compilePatterns] at h
      subst h
      simp at hp
    | cons v rest ih =>
      intro pats h p hp
      rw [compilePatterns] at h
      by_cases he : trimSp v = emptyStr
      · rw [if_pos he] at h
        exact ih pats h p hp
      · rw [if_neg he] at h
        have hpk : patternKindFor (trimSp v) true =
            (PatKind.regex, stripRegexPfx (trimSp v)) := by
          rw [patternKindFor, if_pos rfl]
        rw [hpk] at h
        dsimp only at h
        by_cases hr : rcOk (stripRegexPfx (trimSp v)) = true
        · rw [if_pos hr] at h
          cases hrec : compilePatterns trimSp rcOk validG true rest with
          | none => rw [hrec] at h; simp at h
          | some ps =>
            rw [hrec] at h
            simp only [Option.map_some'] at h
            have hpats : pats = ⟨trimSp v, PatKind.regex, emptyStr,
                stripRegexPfx (trimSp v), false⟩ :: ps := by
              exact (Option.some.injEq _ _ ▸ h).symm
            rw [hpats] at hp
            rcases List.mem_cons.mp hp with h1 | h1
            · rw [h1]
            · exact ih ps hrec p h1
        · rw [if_neg hr] at h
          exact absurd h (by simp)

/-- C10 witness: a concrete regex-kind pattern matched with two different
base names gives the same result, the regex applied to the
slash-normalized relative path. -/
theorem compiled_regex_rel_only_wit :
    (⟨logGlob, PatKind.regex, emptyStr, logGlob, false⟩ : Pat).kind =
      PatKind.regex ∧
    (matchCompiledPattern (fun _ _ => false) (fun _ _ => false)
        (fun _ s => s == s) slashChar
        ⟨logGlob, PatKind.regex, emptyStr, logGlob, false⟩ nameLog relLog =
      (fun (_ s : String) => s == s) logGlob (toSlash slashChar relLog) ∧
    matchCompiledPattern (fun _ _ => false) (fun _ _ => false)
        (fun _ s => s == s) slashChar
        ⟨logGlob, PatKind.regex, emptyStr, logGlob, false⟩ nameLog relLog =
      matchCompiledPattern (fun _ _ => false) (fun _ _ => false)
        (fun _ s => s == s) slashChar
        ⟨logGlob, PatKind.regex, emptyStr, logGlob, false⟩ nameTxt relLog) :=
  ⟨by decide, compiled_regex_rel_only.1 (fun _ _ => false) (fun _ _ => false)
    (fun _ s => s == s) slashChar
    ⟨logGlob, PatKind.regex, emptyStr, logGlob, false⟩ nameLog nameTxt relLog
    (by decide)⟩

end FolderTail
